import Mathlib

/-!
Shallow embedding of the litdb mysql2 driver adapter (src/index.ts):
the named-parameter binder (convertNamedParams), the driver statement's
parameter resolution (DriverStatement.params), run with DDL splitting
(splitSqlStatements), the result-shaping operations of MySqlStatement,
the result materializer, and the row-mutation helpers of
MySqlDbConnection (insert, insertAll, update).

JavaScript runtime values are modelled by the inductive type Value
(undefined, null, booleans, numbers, strings, arrays, plain objects);
records are association lists in insertion order.  Class instances
produced by result materialization are modelled by an abstract
constructor function Value to Value.
-/

namespace LitdbMysql2

/-- A JavaScript runtime value, as far as the adapter inspects them. -/
inductive Value where
  | undefined
  | vnull
  | bool (b : Bool)
  | num (n : Int)
  | str (s : String)
  | arr (xs : List Value)
  | obj (fs : List (String × Value))


/-- JavaScript truthiness, as used by the adapter's conditionals. -/
def Value.truthy : Value → Bool
  | .undefined => false
  | .vnull => false
  | .bool b => b
  | .num n => n != 0
  | .str s => s ≠ ""
  | .arr _ => true
  | .obj _ => true

/-- IS.arr from litdb: Array.isArray. -/
def Value.isArr : Value → Bool
  | .arr _ => true
  | _ => false

/-- IS.rec from litdb: a non-null, non-array object. -/
def Value.isRec : Value → Bool
  | .obj _ => true
  | _ => false

/-- IS.obj from litdb: a non-null object (arrays included). -/
def Value.isObjLike : Value → Bool
  | .obj _ => true
  | .arr _ => true
  | _ => false

/-- JavaScript loose equality with null: true for null and undefined. -/
def Value.nullish : Value → Bool
  | .undefined => true
  | .vnull => true
  | _ => false

/-- JavaScript property read on an object literal, undefined when absent. -/
def jsGet (fs : List (String × Value)) (k : String) : Value :=
  match fs.find? (fun p => p.1 == k) with
  | some p => p.2
  | none => .undefined

/-- The JavaScript `in` operator on an object literal. -/
def hasKey (fs : List (String × Value)) (k : String) : Bool :=
  fs.any (fun p => p.1 == k)

/-- Property read lifted to values: only objects have properties here. -/
def Value.get : Value → String → Value
  | .obj fs, k => jsGet fs k
  | _, _ => .undefined

/-- Array elements of a value (only meaningful under isArr). -/
def Value.asArr : Value → List Value
  | .arr xs => xs
  | _ => []

/-- The JavaScript nullish coalescing operator a ?? b. -/
def nullCo (a b : Value) : Value :=
  if a.nullish then b else a

/-- The JavaScript logical-or a || b on values. -/
def jsOr (a b : Value) : Value :=
  if a.truthy then a else b

/-- A regex word character, the \w class: ASCII letters, digits, underscore. -/
def isWordChar (c : Char) : Bool :=
  c.isAlpha || c.isDigit || c == '_'

/--
Right-to-left scanner implementing sql.replace over the pattern
dollar-sign-then-word-chars: returns (transformed output, recorded
identifiers in left-to-right order, pending word-character run that
immediately follows the current position).
-/
def scanR : List Char → List Char × List (List Char) × List Char
  | [] => ([], [], [])
  | c :: rest =>
    let r := scanR rest
    if isWordChar c then (r.1, r.2.1, c :: r.2.2)
    else if c = '$' then
      if r.2.2 = [] then ('$' :: r.1, r.2.1, [])
      else ('?' :: r.1, r.2.2 :: r.2.1, [])
    else (c :: (r.2.2 ++ r.1), r.2.1, [])

/-- The replace step of convertNamedParams: transformed SQL characters and
the identifiers of the named tokens, in left-to-right arrival order. -/
def scanNamed (l : List Char) : List Char × List (List Char) :=
  (((scanR l).2.2 ++ (scanR l).1), (scanR l).2.1)

/-- The query record produced by parameter normalization
(DriverStatementQuery in the source). -/
structure DriverStatementQuery where
  origSql : String := ""
  origParams : List (String × Value) := []
  sql : String
  values : List Value
  paramNames : Option (List String) := none


/--
The values-array construction inside convertNamedParams:
for each recorded name, if the params object has a truthy length
property and lacks the name, throw Missing parameter; otherwise read
the property (undefined when absent).
-/
def resolveValues (lenTruthy : Bool) (params : List (String × Value)) :
    List String → Except String (List Value)
  | [] => .ok []
  | n :: ns =>
    if lenTruthy && !hasKey params n then
      .error ("Missing parameter: " ++ n)
    else
      match resolveValues lenTruthy params ns with
      | .error e => .error e
      | .ok vs => .ok (jsGet params n :: vs)

/-- convertNamedParams from the source: replace each $identifier token
with a positional placeholder, record identifiers in order, and build
the value list from the params object. -/
def convertNamedParams (sql : String) (params : List (String × Value)) :
    Except String DriverStatementQuery :=
  let sc := scanNamed sql.toList
  let paramNames := sc.2.map (fun w => String.mk w)
  match resolveValues (jsGet params "length").truthy params paramNames with
  | .error e => .error e
  | .ok values =>
    .ok { origSql := sql, origParams := params,
          sql := String.mk sc.1, values := values,
          paramNames := some paramNames }

/--
Inverse substitution used to state correctness of the scanner: replace
the i-th positional placeholder by the i-th identifier prefixed with a
dollar sign.  Succeeds exactly when the placeholder count matches the
identifier count.
-/
def substBack : List Char → List (List Char) → Option (List Char)
  | [], ns => if ns = [] then some [] else none
  | c :: rest, ns =>
    if c = '?' then
      match ns with
      | n :: ns2 => (substBack rest ns2).map (fun r => '$' :: (n ++ r))
      | [] => none
    else (substBack rest ns).map (fun r => c :: r)

/--
DriverStatement.params from the source: resolve the call-time parameter
source against the prepared query.  A statement with recorded names and
a record source maps each name through the source with nullish
coalescing to null; an array source is passed through; with no baked
values the result is absent; with exactly one baked value a truthy
scalar is wrapped; anything else throws Invalid params.
-/
def dsParams (q : DriverStatementQuery) (p : Value) :
    Except String (Option (List Value)) :=
  if (q.paramNames.getD []).length != 0 && p.isRec then
    .ok (some ((q.paramNames.getD []).map (fun k => nullCo (p.get k) Value.vnull)))
  else if p.isArr then
    .ok (some p.asArr)
  else if q.values.length == 0 then
    .ok none
  else if q.values.length == 1 then
    .ok (if p.truthy then some (if p.isArr then p.asArr else [p]) else none)
  else
    .error ("Invalid params for query: " ++ q.sql)

/-- Whitespace for String.prototype.trim. -/
def jsWhitespace (c : Char) : Bool :=
  c == ' ' || c == '\t' || c == '\n' || c == '\r' || c == '\x0b' ||
  c == '\x0c' || c == '\u00A0' || c == '\uFEFF' || c == '\u2028' || c == '\u2029'

/-- String.prototype.trim on character lists. -/
def trimChars (l : List Char) : List Char :=
  ((l.dropWhile jsWhitespace).reverse.dropWhile jsWhitespace).reverse

/-- Extend the first fragment of a split by one character. -/
def consHead (c : Char) : List (List Char) → List (List Char)
  | [] => [[c]]
  | s :: ss => (c :: s) :: ss

/-- String.prototype.split over the separator regex: a semicolon
followed by a carriage-return-line-feed pair or by a bare line feed. -/
def rawSplit : List Char → List (List Char)
  | [] => [[]]
  | ';' :: '\r' :: '\n' :: rest => [] :: rawSplit rest
  | ';' :: '\n' :: rest => [] :: rawSplit rest
  | c :: rest => consHead c (rawSplit rest)

/-- splitSqlStatements from the source: split on semicolon-newline,
trim each fragment, drop the fragments that became empty. -/
def splitSqlStatements (sql : String) : List String :=
  (((rawSplit sql.toList).map trimChars).filter (fun l => l ≠ [])).map
    (fun l => String.mk l)

/--
The sequential loop inside run for the split path: execute each
statement through the native driver in order, stop at the first
failure.  Returns the native calls attempted in order (no parameter
payload in this path) and whether every call succeeded.
-/
def runSeq (native : String → Option (List Value) → Bool) :
    List String → List (String × Option (List Value)) × Bool
  | [] => ([], true)
  | s :: rest =>
    if native s none then
      ((s, none) :: (runSeq native rest).1, (runSeq native rest).2)
    else ([(s, none)], false)

/--
DriverStatement.run from the source: resolve parameters; with an empty
or absent positional list, split the SQL and run each fragment as its
own native call sequentially; otherwise run the whole SQL as a single
native call carrying the positional values.  The result records the
native calls issued and whether they all succeeded.
-/
def dsRun (q : DriverStatementQuery) (p : Value)
    (native : String → Option (List Value) → Bool) :
    Except String (List (String × Option (List Value)) × Bool) :=
  match dsParams q p with
  | .error e => .error e
  | .ok pos =>
    if (pos.getD []).length == 0 then
      .ok (runSeq native (splitSqlStatements q.sql))
    else
      .ok ([(q.sql, some (pos.getD []))], native q.sql (some (pos.getD [])))

/--
MySqlStatement.result from the source, the result materializer: null
and undefined become null; with a target constructor attached, object
rows are passed through the constructor; everything else is returned
unchanged.
-/
def matResult (target : Option (Value → Value)) (o : Value) : Value :=
  if o.nullish then Value.vnull
  else
    match target with
    | some ctor => if o.isObjLike then ctor o else o
    | none => o

/-- DriverStatement.get: the first row or null, via JavaScript
indexing and logical-or. -/
def dsGet (rows : List Value) : Value :=
  jsOr (rows.getD 0 Value.undefined) Value.vnull

/-- JavaScript indexing into a positional row: undefined out of range. -/
def jsIndex (xs : List Value) (i : Nat) : Value :=
  xs.getD i Value.undefined

/-- DriverStatement.array: the first positional row, undefined when
there are no rows (JavaScript indexing into an empty array). -/
def dsArray (arows : List (List Value)) : Value :=
  match arows with
  | [] => Value.undefined
  | r :: _ => Value.arr r

/-- MySqlStatement.all as a function of the rows the native driver
returned: materialize each row. -/
def msAll (target : Option (Value → Value)) (rows : List Value) : List Value :=
  rows.map (matResult target)

/-- MySqlStatement.one: materialize the first row or null. -/
def msOne (target : Option (Value → Value)) (rows : List Value) : Value :=
  matResult target (dsGet rows)

/-- MySqlStatement.arrays: the positional rows, unchanged. -/
def msArrays (_target : Option (Value → Value)) (arows : List (List Value)) :
    List (List Value) :=
  arows

/-- MySqlStatement.array: the first positional row, no materialization. -/
def msArray (_target : Option (Value → Value)) (arows : List (List Value)) :
    Value :=
  dsArray arows

/-- MySqlStatement.column: the first entry of every positional row. -/
def msColumn (_target : Option (Value → Value)) (arows : List (List Value)) :
    List Value :=
  arows.map (fun row => jsIndex row 0)

/-- MySqlStatement.value: the first entry of the first positional row,
nullish-coalesced to null. -/
def msValue (_target : Option (Value → Value)) (arows : List (List Value)) :
    Value :=
  nullCo (jsIndex (arows.map (fun row => jsIndex row 0)) 0) Value.vnull

/-- The Changes record of litdb. -/
structure Changes where
  changes : Int := 0
  lastInsertRowid : Int := 0

/--
MySqlDbConnection.insert: an absent (falsy) row returns the zero
Changes with no native call; otherwise the statement built by the
external schema layer is executed, modelled by the oracle execRow
returning the Changes and the count of native calls it issued.
-/
def insertM (row : Value) (execRow : Value → Changes × Nat) : Changes × Nat :=
  if !row.truthy then ({ changes := 0, lastInsertRowid := 0 }, 0)
  else execRow row

/--
MySqlDbConnection.insertAll: an empty row list returns the zero Changes
with no native call; otherwise every row is executed in order through
the per-row oracle, changes summed and lastInsertRowid taken from the
most recent row.
-/
def insertAllM (rows : List Value) (perRow : Value → Changes × Nat) :
    Changes × Nat :=
  if rows.length == 0 then ({ changes := 0, lastInsertRowid := 0 }, 0)
  else
    rows.foldl
      (fun acc row =>
        ({ changes := acc.1.changes + (perRow row).1.changes,
           lastInsertRowid := (perRow row).1.lastInsertRowid },
         acc.2 + (perRow row).2))
      ({ changes := 0, lastInsertRowid := 0 }, 0)

/-- Column reflection metadata of a litdb property. -/
structure ColumnMeta where
  primaryKey : Bool
  name : String

/-- Property reflection metadata of a litdb row class. -/
structure PropMeta where
  name : String
  column : Option ColumnMeta

/-- cls.$props.filter(primaryKey).map(column.name) from update. -/
def pkColumnNames (props : List PropMeta) : List String :=
  props.filterMap
    (fun x =>
      match x.column with
      | some c => if c.primaryKey then some c.name else none
      | none => none)

/-- propsWithValues from the source: the keys of the row whose values
are neither null nor undefined, in insertion order. -/
def propsWithValues (row : List (String × Value)) : List String :=
  (row.filter (fun p => !(p.2.nullish))).map (fun p => p.1)

/-- Array.from(new Set(l)): deduplicate keeping first occurrences. -/
def dedupAux (seen : List String) : List String → List String
  | [] => []
  | x :: xs => if x ∈ seen then dedupAux seen xs else x :: dedupAux (x :: seen) xs

/-- Array.from(new Set(l)) with an empty starting set. -/
def jsSetList (l : List String) : List String :=
  dedupAux [] l

/--
The bound field set computed by MySqlDbConnection.update on the
options branch: the requested property list (explicit onlyProps, or
the row's non-null keys when onlyWithValues asked without a list)
extended with the primary-key column names, duplicates removed.
-/
def updateBoundProps (props : List PropMeta) (row : List (String × Value))
    (onlyProps : Option (List String)) : List String :=
  jsSetList ((onlyProps.getD (propsWithValues row)) ++ pkColumnNames props)

/-! ### Helper lemmas -/

theorem toList_mk (l : List Char) : (String.mk l).toList = l := rfl

theorem rawSplit_ne_nil (l : List Char) : rawSplit l ≠ [] := by
  induction l using rawSplit.induct
  case case1 => simp [rawSplit]
  case case2 rest ih => simp [rawSplit]
  case case3 rest ih => simp [rawSplit]
  case case4 c rest h2 h3 ih =>
    cases h : rawSplit rest <;> simp [rawSplit, consHead, h]

/-- Glue fragments back together with the separators between them. -/
def sepJoin : List (List Char) → List (List Char) → List Char
  | [], _ => []
  | f :: _, [] => f
  | f :: fs, s :: ss => f ++ s ++ sepJoin fs ss

theorem sepJoin_cons (c : Char) (f : List Char) (fs ss : List (List Char)) :
    sepJoin ((c :: f) :: fs) ss = c :: sepJoin (f :: fs) ss := by
  cases ss <;> simp [sepJoin]

theorem rawSplit_reconstruct (l : List Char) :
    ∃ seps, (∀ s ∈ seps, s = [';', '\n'] ∨ s = [';', '\r', '\n'])
      ∧ seps.length + 1 = (rawSplit l).length
      ∧ sepJoin (rawSplit l) seps = l := by
  induction l using rawSplit.induct
  case case1 => exact ⟨[], by simp, by simp [rawSplit], by simp [rawSplit, sepJoin]⟩
  case case2 rest ih =>
    obtain ⟨seps, hmem, hlen, hjoin⟩ := ih
    refine ⟨[';', '\r', '\n'] :: seps, ?_, ?_, ?_⟩
    · intro s hs
      rcases List.mem_cons.mp hs with h | h
      · exact Or.inr h
      · exact hmem s h
    · simp [rawSplit, ← hlen]
    · cases hr : rawSplit rest with
      | nil => exact absurd hr (rawSplit_ne_nil rest)
      | cons f fs =>
        rw [hr] at hjoin
        simp [rawSplit, hr, sepJoin, hjoin]
  case case3 rest ih =>
    obtain ⟨seps, hmem, hlen, hjoin⟩ := ih
    refine ⟨[';', '\n'] :: seps, ?_, ?_, ?_⟩
    · intro s hs
      rcases List.mem_cons.mp hs with h | h
      · exact Or.inl h
      · exact hmem s h
    · simp [rawSplit, ← hlen]
    · cases hr : rawSplit rest with
      | nil => exact absurd hr (rawSplit_ne_nil rest)
      | cons f fs =>
        rw [hr] at hjoin
        simp [rawSplit, hr, sepJoin, hjoin]
  case case4 c rest h2 h3 ih =>
    obtain ⟨seps, hmem, hlen, hjoin⟩ := ih
    cases hr : rawSplit rest with
    | nil => exact absurd hr (rawSplit_ne_nil rest)
    | cons f fs =>
      rw [hr] at hjoin hlen
      refine ⟨seps, hmem, ?_, ?_⟩
      · simp [rawSplit, hr, consHead] at *
        omega
      · have hcons : rawSplit (c :: rest) = (c :: f) :: fs := by
          simp [rawSplit, hr, consHead]
        rw [hcons, sepJoin_cons, hjoin]

theorem sepJoin_mem_decomp (f : List Char) :
    ∀ (fs ss : List (List Char)) (l : List Char),
      ss.length + 1 = fs.length → sepJoin fs ss = l → f ∈ fs →
      ∃ pre post, l = pre ++ f ++ post := by
  intro fs
  induction fs with
  | nil =>
    intro ss l hlen hjoin hf
    cases hf
  | cons f0 fs2 ih =>
    intro ss l hlen hjoin hf
    cases ss with
    | nil =>
      have hfs2 : fs2 = [] := by
        simp only [List.length_nil, List.length_cons] at hlen
        exact List.length_eq_zero.mp (by omega)
      subst hfs2
      have hf0 : f = f0 := by
        rcases List.mem_cons.mp hf with h | h
        · exact h
        · cases h
      subst hf0
      simp only [sepJoin] at hjoin
      exact ⟨[], [], by simp [hjoin.symm]⟩
    | cons s ss2 =>
      simp only [sepJoin] at hjoin
      rcases List.mem_cons.mp hf with h | h
      · subst h
        exact ⟨[], s ++ sepJoin fs2 ss2, by rw [← hjoin]; simp⟩
      · have hlen2 : ss2.length + 1 = fs2.length := by
          simp only [List.length_cons] at hlen
          omega
        obtain ⟨pre, post, hp⟩ := ih ss2 (sepJoin fs2 ss2) hlen2 rfl h
        refine ⟨f0 ++ s ++ pre, post, ?_⟩
        rw [← hjoin, hp]
        simp

theorem dropWhile_idem (p : Char → Bool) (l : List Char) :
    (l.dropWhile p).dropWhile p = l.dropWhile p := by
  induction l with
  | nil => simp
  | cons c t ih =>
    by_cases hc : p c = true
    · simp [List.dropWhile_cons, hc, ih]
    · simp [List.dropWhile_cons, hc]

theorem front_clean_append (p : Char → Bool) (l1 l2 : List Char)
    (h : (l1 ++ l2).dropWhile p = l1 ++ l2) : l1.dropWhile p = l1 := by
  cases l1 with
  | nil => simp
  | cons c t =>
    rw [List.cons_append, List.dropWhile_cons] at h
    by_cases hc : p c = true
    · exfalso
      rw [if_pos hc] at h
      have hle := (List.dropWhile_sublist (l := t ++ l2) (p := p)).length_le
      rw [h] at hle
      simp at hle
    · rw [List.dropWhile_cons, if_neg hc]

theorem trim_front_decomp (l : List Char) :
    l.dropWhile jsWhitespace
      = trimChars l
        ++ ((l.dropWhile jsWhitespace).reverse.takeWhile jsWhitespace).reverse := by
  have h3 := List.takeWhile_append_dropWhile (p := jsWhitespace)
    (l := (l.dropWhile jsWhitespace).reverse)
  have h4 := congrArg List.reverse h3
  rw [List.reverse_append, List.reverse_reverse] at h4
  simpa [trimChars] using h4.symm

theorem trim_decomp (l : List Char) :
    ∃ pre post, l = pre ++ trimChars l ++ post := by
  refine ⟨l.takeWhile jsWhitespace,
    ((l.dropWhile jsWhitespace).reverse.takeWhile jsWhitespace).reverse, ?_⟩
  have h1 := List.takeWhile_append_dropWhile (p := jsWhitespace) (l := l)
  conv_lhs => rw [← h1, trim_front_decomp l]
  rw [List.append_assoc]

theorem trimChars_idem (l : List Char) : trimChars (trimChars l) = trimChars l := by
  have hfront : (trimChars l).dropWhile jsWhitespace = trimChars l := by
    apply front_clean_append jsWhitespace (trimChars l)
      ((l.dropWhile jsWhitespace).reverse.takeWhile jsWhitespace).reverse
    rw [← trim_front_decomp l]
    exact dropWhile_idem _ _
  have hback : (trimChars l).reverse.dropWhile jsWhitespace = (trimChars l).reverse := by
    have h5 : (trimChars l).reverse
        = (l.dropWhile jsWhitespace).reverse.dropWhile jsWhitespace := by
      simp only [trimChars, List.reverse_reverse]
    rw [h5]
    exact dropWhile_idem _ _
  calc trimChars (trimChars l)
      = (((trimChars l).dropWhile jsWhitespace).reverse.dropWhile jsWhitespace).reverse := by
        simp only [trimChars]
    _ = ((trimChars l).reverse.dropWhile jsWhitespace).reverse := by rw [hfront]
    _ = ((trimChars l).reverse).reverse := by rw [hback]
    _ = trimChars l := List.reverse_reverse _

theorem isWordChar_dollar : isWordChar '$' = false := by decide

theorem substBack_append (w out : List Char) (ns : List (List Char))
    (hw : ∀ c ∈ w, c ≠ '?') :
    substBack (w ++ out) ns = (substBack out ns).map (fun r => w ++ r) := by
  induction w with
  | nil => cases h : substBack out ns <;> simp [h]
  | cons c t ih =>
    have hc : c ≠ '?' := hw c (List.mem_cons_self c t)
    have ht : ∀ x ∈ t, x ≠ '?' := fun x hx => hw x (List.mem_cons_of_mem c hx)
    rw [List.cons_append]
    simp only [substBack, if_neg hc]
    rw [ih ht]
    cases h : substBack out ns <;> simp [h]

theorem scanR_spec (l : List Char) (hq : '?' ∉ l) :
    (∀ c ∈ (scanR l).2.2, isWordChar c = true)
    ∧ (scanR l).1.count '?' = (scanR l).2.1.length
    ∧ ∃ rest2, l = (scanR l).2.2 ++ rest2
        ∧ substBack (scanR l).1 (scanR l).2.1 = some rest2 := by
  induction l with
  | nil =>
    exact ⟨by simp [scanR], by simp [scanR], [], by simp [scanR],
      by simp [scanR, substBack]⟩
  | cons c rest ih =>
    have hq2 : '?' ∉ rest := fun h => hq (List.mem_cons_of_mem _ h)
    have hcq : c ≠ '?' := by
      intro h
      exact hq (h ▸ List.mem_cons_self c rest)
    have hqc : ¬ ('?' = c) := fun h => hcq h.symm
    obtain ⟨hw, hcount, rest2, hsplit, hsub⟩ := ih hq2
    by_cases hwc : isWordChar c = true
    · have hs : scanR (c :: rest)
          = ((scanR rest).1, (scanR rest).2.1, c :: (scanR rest).2.2) := by
        simp [scanR, hwc]
      rw [hs]
      refine ⟨?_, hcount, rest2, ?_, hsub⟩
      · intro d hd
        rcases List.mem_cons.mp hd with h | h
        · exact h ▸ hwc
        · exact hw d h
      · rw [List.cons_append, ← hsplit]
    · by_cases hdc : c = '$'
      · by_cases hwe : (scanR rest).2.2 = []
        · have hs : scanR (c :: rest)
              = ('$' :: (scanR rest).1, (scanR rest).2.1, []) := by
            simp [scanR, hwc, hdc, hwe, isWordChar_dollar]
          rw [hs]
          have hr2 : rest2 = rest := by
            rw [hwe] at hsplit
            simpa using hsplit.symm
          refine ⟨by simp, ?_, c :: rest, by simp, ?_⟩
          · rw [List.count_cons]
            simp [hcount, hqc]
          · have hdq : ('$' : Char) ≠ '?' := by decide
            simp only [substBack, if_neg hdq]
            rw [hsub, hr2]
            simp only [Option.map_some']
            rw [hdc]
        · have hs : scanR (c :: rest)
              = ('?' :: (scanR rest).1,
                 (scanR rest).2.2 :: (scanR rest).2.1, []) := by
            simp [scanR, hwc, hdc, hwe, isWordChar_dollar]
          rw [hs]
          refine ⟨by simp, ?_, c :: rest, by simp, ?_⟩
          · rw [List.count_cons]
            simp [hcount]
          · have hstep : substBack ('?' :: (scanR rest).1)
                ((scanR rest).2.2 :: (scanR rest).2.1)
                = (substBack (scanR rest).1 (scanR rest).2.1).map
                    (fun r => '$' :: ((scanR rest).2.2 ++ r)) := by
              simp [substBack]
            rw [hstep, hsub]
            simp only [Option.map_some']
            rw [hdc, ← hsplit]
      · have hs : scanR (c :: rest)
            = (c :: ((scanR rest).2.2 ++ (scanR rest).1),
               (scanR rest).2.1, []) := by
          simp [scanR, hwc, hdc]
        rw [hs]
        have hwq : ∀ d ∈ (scanR rest).2.2, d ≠ '?' := by
          intro d hd he
          have hdw := hw d hd
          rw [he] at hdw
          exact absurd hdw (by decide)
        refine ⟨by simp, ?_, c :: rest, by simp, ?_⟩
        · have hcw : (scanR rest).2.2.count '?' = 0 := by
            rw [List.count_eq_zero]
            intro hmem
            exact hwq '?' hmem rfl
          rw [List.count_cons, List.count_append, hcw, hcount]
          simp [hqc, hcq]
        · simp only [substBack, if_neg hcq]
          rw [substBack_append _ _ _ hwq, hsub]
          simp only [Option.map_some']
          rw [← hsplit]

theorem resolveValues_ok (lenTruthy : Bool) (params : List (String × Value)) :
    ∀ (ns : List String) (vs : List Value),
      resolveValues lenTruthy params ns = .ok vs →
      vs = ns.map (fun n => jsGet params n) := by
  intro ns
  induction ns with
  | nil =>
    intro vs h
    simp only [resolveValues] at h
    cases h
    rfl
  | cons n t ih =>
    intro vs h
    simp only [resolveValues] at h
    by_cases hg : (lenTruthy && !hasKey params n) = true
    · rw [if_pos hg] at h
      cases h
    · rw [if_neg hg] at h
      cases hr : resolveValues lenTruthy params t with
      | error e =>
        rw [hr] at h
        cases h
      | ok ws =>
        rw [hr] at h
        cases h
        simp [ih ws hr]

theorem runSeq_spec (native : String → Option (List Value) → Bool)
    (stmts : List String) :
    (runSeq native stmts).1.map Prod.fst
      = stmts.take (stmts.findIdx (fun s => !native s none) + 1)
    ∧ (runSeq native stmts).2 = stmts.all (fun s => native s none) := by
  induction stmts with
  | nil => simp [runSeq]
  | cons s rest ih =>
    by_cases hs : native s none = true
    · have h1 : runSeq native (s :: rest)
          = ((s, none) :: (runSeq native rest).1, (runSeq native rest).2) := by
        simp [runSeq, hs]
      rw [h1]
      constructor
      · simp only [List.map_cons]
        rw [ih.1, List.findIdx_cons]
        simp [hs]
      · simp [List.all_cons, hs, ih.2]
    · have hsf : native s none = false := by
        cases hnn : native s none
        · rfl
        · exact absurd hnn hs
      have h1 : runSeq native (s :: rest) = ([(s, none)], false) := by
        simp [runSeq, hsf]
      rw [h1]
      constructor
      · rw [List.findIdx_cons]
        simp [hsf]
      · simp [List.all_cons, hsf]

theorem mem_dedupAux (l : List String) : ∀ (seen : List String) (x : String),
    x ∈ dedupAux seen l ↔ x ∈ l ∧ x ∉ seen := by
  induction l with
  | nil =>
    intro seen x
    simp [dedupAux]
  | cons a t ih =>
    intro seen x
    by_cases ha : a ∈ seen
    · rw [dedupAux, if_pos ha, ih]
      constructor
      · rintro ⟨hxt, hxs⟩
        exact ⟨List.mem_cons_of_mem a hxt, hxs⟩
      · rintro ⟨hx, hxs⟩
        rcases List.mem_cons.mp hx with rfl | hxt
        · exact absurd ha hxs
        · exact ⟨hxt, hxs⟩
    · rw [dedupAux, if_neg ha]
      constructor
      · intro hx
        rcases List.mem_cons.mp hx with rfl | hxt
        · exact ⟨List.mem_cons_self x t, ha⟩
        · obtain ⟨h1, h2⟩ := (ih (a :: seen) x).mp hxt
          exact ⟨List.mem_cons_of_mem a h1,
            fun hxs => h2 (List.mem_cons_of_mem a hxs)⟩
      · rintro ⟨hx, hxs⟩
        rcases List.mem_cons.mp hx with rfl | hxt
        · exact List.mem_cons_self x _
        · by_cases hxa : x = a
          · exact hxa ▸ List.mem_cons_self a _
          · refine List.mem_cons_of_mem a ((ih (a :: seen) x).mpr ⟨hxt, ?_⟩)
            intro hxs2
            rcases List.mem_cons.mp hxs2 with h | h
            · exact hxa h
            · exact hxs h

theorem nodup_dedupAux (l : List String) : ∀ seen : List String,
    (dedupAux seen l).Nodup := by
  induction l with
  | nil =>
    intro seen
    simp [dedupAux]
  | cons a t ih =>
    intro seen
    by_cases ha : a ∈ seen
    · rw [dedupAux, if_pos ha]
      exact ih seen
    · rw [dedupAux, if_neg ha]
      refine List.nodup_cons.mpr ⟨?_, ih _⟩
      intro hmem
      exact ((mem_dedupAux t (a :: seen) a).mp hmem).2 (List.mem_cons_self a seen)

theorem nullCo_ne_undefined (v : Value) : nullCo v Value.vnull ≠ Value.undefined := by
  intro hv
  unfold nullCo at hv
  split at hv
  · simp at hv
  · next hnn =>
    rw [hv] at hnn
    simp [Value.nullish] at hnn

/-! ### Claims -/

/--
Claim C1 (amended): for every SQL string with no pre-existing question
marks and every mapping parameter source on which convertNamedParams
succeeds, the returned sql contains exactly one question mark per
recorded identifier, each replacing the corresponding dollar token in
the same left-to-right order (witnessed by the inverse substitution
recovering the original SQL), and the value list has one entry per
recorded identifier, each the JavaScript property read of that
identifier from the source (undefined when absent).
-/
theorem claim1_convertNamedParams (sql : String) (params : List (String × Value))
    (q : DriverStatementQuery) (hok : convertNamedParams sql params = .ok q)
    (hq : '?' ∉ sql.toList) :
    ∃ ns, q.paramNames = some ns
      ∧ q.sql.toList.count '?' = ns.length
      ∧ substBack q.sql.toList (ns.map String.toList) = some sql.toList
      ∧ q.values.length = ns.length
      ∧ q.values = ns.map (fun n => jsGet params n) := by
  obtain ⟨hw, hcount, rest2, hsplit, hsub⟩ := scanR_spec sql.toList hq
  simp only [convertNamedParams, scanNamed] at hok
  cases hr : resolveValues (jsGet params "length").truthy params
      (((scanR sql.toList).2.1).map (fun w => String.mk w)) with
  | error e =>
    rw [hr] at hok
    cases hok
  | ok vs =>
    rw [hr] at hok
    cases hok
    have hvs := resolveValues_ok _ params _ vs hr
    have hwq : ∀ d ∈ (scanR sql.toList).2.2, d ≠ '?' := by
      intro d hd he
      have hdw := hw d hd
      rw [he] at hdw
      exact absurd hdw (by decide)
    have hcw : (scanR sql.toList).2.2.count '?' = 0 := by
      rw [List.count_eq_zero]
      intro hmem
      exact hwq '?' hmem rfl
    refine ⟨((scanR sql.toList).2.1).map (fun w => String.mk w), rfl, ?_, ?_, ?_, ?_⟩
    · rw [toList_mk, List.count_append, hcw, hcount]
      simp
    · have hmm : (((scanR sql.toList).2.1).map (fun w => String.mk w)).map
          String.toList = (scanR sql.toList).2.1 := by
        have hco : (String.toList ∘ fun w : List Char => String.mk w) = id := rfl
        rw [List.map_map, hco, List.map_id]
      rw [toList_mk, hmm, substBack_append _ _ _ hwq, hsub]
      simp only [Option.map_some']
      rw [← hsplit]
    · rw [hvs]
      simp
    · exact hvs

/-- Claim C1 witness: a concrete run of the amended statement. -/
theorem claim1_witness :
    ∃ ns, (some ["x", "y"] : Option (List String)) = some ns
      ∧ ("a ? b ?" : String).toList.count '?' = ns.length
      ∧ substBack ("a ? b ?" : String).toList (ns.map String.toList)
          = some ("a $x b $y" : String).toList
      ∧ ([Value.num 1, Value.undefined] : List Value).length = ns.length
      ∧ [Value.num 1, Value.undefined]
          = ns.map (fun n => jsGet [("x", Value.num 1)] n) :=
  claim1_convertNamedParams "a $x b $y" [("x", Value.num 1)]
    { origSql := "a $x b $y", origParams := [("x", Value.num 1)],
      sql := "a ? b ?", values := [Value.num 1, Value.undefined],
      paramNames := some ["x", "y"] } rfl (by decide)

/--
Claim C1 counterexample: on SQL already containing a question mark the
returned sql does not contain exactly one question mark per named
token: the input has one dollar token but the output has two question
marks.
-/
theorem claim1_counterexample :
    (convertNamedParams "? $a" []).map
        (fun q => (q.sql, q.values.length, q.sql.toList.count '?'))
      = .ok ("? ?", 1, 2)
    ∧ (2 : Nat) ≠ 1 :=
  ⟨rfl, by decide⟩

/--
Claim C2 (code bug): a non-empty mapping source missing the referenced
identifier does not make convertNamedParams fail: the length guard
reads the length property of a plain object, which is undefined and
falsy, so the missing name is bound to undefined and no error is
raised.  The Missing parameter error fires only when the mapping has a
truthy length entry.
-/
theorem claim2_missing_param_not_raised :
    (convertNamedParams "SELECT $a" [("b", Value.num 1)]).map (fun q => q.values)
      = .ok [Value.undefined]
    ∧ (convertNamedParams "SELECT $a" [("length", Value.num 2)]).map
        (fun q => q.values)
      = .error "Missing parameter: a" :=
  ⟨rfl, rfl⟩

/--
Claim C3 (amended): run splits exactly when the computed positional
parameter list is absent or empty: in that case the SQL is split and
each fragment issued as its own native call sequentially in source
order, stopping at the first failing call without attempting the rest;
when the positional list is non-empty, exactly one native call is
issued with the whole unsplit SQL and those values.
-/
theorem claim3_run (q : DriverStatementQuery) (p : Value)
    (native : String → Option (List Value) → Bool) (pos : Option (List Value))
    (hp : dsParams q p = .ok pos) :
    ((pos.getD []).length = 0 →
        dsRun q p native = .ok (runSeq native (splitSqlStatements q.sql))
        ∧ (runSeq native (splitSqlStatements q.sql)).1.map Prod.fst
            = (splitSqlStatements q.sql).take
                ((splitSqlStatements q.sql).findIdx (fun s => !native s none) + 1)
        ∧ (runSeq native (splitSqlStatements q.sql)).2
            = (splitSqlStatements q.sql).all (fun s => native s none))
    ∧ (∀ vs, pos = some vs → vs ≠ [] →
        dsRun q p native = .ok ([(q.sql, some vs)], native q.sql (some vs))) := by
  constructor
  · intro hlen
    refine ⟨?_, (runSeq_spec native (splitSqlStatements q.sql)).1,
      (runSeq_spec native (splitSqlStatements q.sql)).2⟩
    simp [dsRun, hp, hlen]
  · rintro vs rfl hvs
    cases vs with
    | nil => exact absurd rfl hvs
    | cons a t => simp [dsRun, hp]

/-- Claim C3 witness: a two-statement script with no parameters is
split and both fragments execute, in order. -/
theorem claim3_witness :
    dsRun { sql := "a;\nb", values := [] } Value.undefined (fun _ _ => true)
      = .ok ([("a", none), ("b", none)], true) := by
  have h := (claim3_run { sql := "a;\nb", values := [] } Value.undefined
      (fun _ _ => true) none rfl).1 rfl
  rw [h.1]
  rfl

/--
Claim C3 counterexample: a statement whose SQL carries a named token,
run with an empty mapping source, issues a single unsplit native call
(binding null), even though the parameter source is empty and the SQL
splits into two fragments.
-/
theorem claim3_counterexample :
    (convertNamedParams "$a;\nb" []).map
        (fun q => dsRun q (Value.obj []) (fun _ _ => true))
      = .ok (.ok ([("?;\nb", some [Value.vnull])], true))
    ∧ (splitSqlStatements "?;\nb").length = 2 :=
  ⟨rfl, rfl⟩

/--
Claim C4 (code bug): on zero rows, one and value return null, but
array returns undefined (indexing an empty array), not null as the
declared return type and the specification state.
-/
theorem claim4_zero_rows_null :
    msOne none [] = Value.vnull
    ∧ msValue none [] = Value.vnull
    ∧ msArray none [] = Value.undefined
    ∧ Value.undefined ≠ Value.vnull :=
  ⟨rfl, rfl, rfl, fun h => nomatch h⟩

/--
Claim C5: on zero rows, all, column and arrays return the empty
sequence, never null or undefined, whatever target type is attached.
-/
theorem claim5_zero_rows_empty (t : Option (Value → Value)) :
    msAll t [] = [] ∧ msColumn t [] = [] ∧ msArrays t [] = [] :=
  ⟨rfl, rfl, rfl⟩

/--
Claim C7: materialization sends null and undefined rows to null
regardless of target type; with no target type a non-nullish row is
returned unchanged; with a target type an object row goes through the
constructor; all and one route their rows through the materializer,
while arrays, array, column and value ignore the attached target type.
-/
theorem claim7_materialization (t : Option (Value → Value)) (f : Value → Value)
    (o : Value) (rows : List Value) (arows : List (List Value)) :
    matResult t Value.vnull = Value.vnull
    ∧ matResult t Value.undefined = Value.vnull
    ∧ (o.nullish = false → matResult none o = o)
    ∧ (∀ fs, matResult (some f) (Value.obj fs) = f (Value.obj fs))
    ∧ msAll t rows = rows.map (matResult t)
    ∧ msOne t rows = matResult t (dsGet rows)
    ∧ msArrays t arows = msArrays none arows
    ∧ msArray t arows = msArray none arows
    ∧ msColumn t arows = msColumn none arows
    ∧ msValue t arows = msValue none arows := by
  refine ⟨rfl, rfl, ?_, fun fs => rfl, rfl, rfl, rfl, rfl, rfl, rfl⟩
  intro ho
  simp [matResult, ho]

/-- Claim C7 witness: the materializer evaluated at concrete rows. -/
theorem claim7_witness :
    matResult none (Value.num 3) = Value.num 3
    ∧ matResult (some (fun v => Value.arr [v])) (Value.obj [])
        = Value.arr [Value.obj []]
    ∧ matResult (some (fun v => Value.arr [v])) Value.vnull = Value.vnull := by
  have h := claim7_materialization (some (fun v => Value.arr [v]))
      (fun v => Value.arr [v]) (Value.num 3) [] []
  have h0 := claim7_materialization none (fun v => Value.arr [v])
      (Value.num 3) [] []
  exact ⟨h0.2.2.1 rfl, h.2.2.2.1 [], h.1⟩

/--
Claim C8: insert with an absent row and insertAll with an empty list
return the zero Change Result immediately, with zero native calls,
whatever the execution oracle would do.
-/
theorem claim8_empty_mutations (execRow perRow : Value → Changes × Nat) :
    insertM Value.undefined execRow = ({ changes := 0, lastInsertRowid := 0 }, 0)
    ∧ insertM Value.vnull execRow = ({ changes := 0, lastInsertRowid := 0 }, 0)
    ∧ insertAllM [] perRow = ({ changes := 0, lastInsertRowid := 0 }, 0) :=
  ⟨rfl, rfl, rfl⟩

/--
Claim C9 (amended): on the filtered branch of update, the bound field
set is the duplicate-free union, in first-occurrence order, of the
requested property names and the row type's primary-key column names
(the names recorded in the column metadata, which coincide with the
property names only when the primary-key columns are not renamed).
-/
theorem claim9_update_bound_fields (props : List PropMeta)
    (row : List (String × Value)) (onlyProps : Option (List String)) :
    (updateBoundProps props row onlyProps).Nodup
    ∧ (∀ s, s ∈ updateBoundProps props row onlyProps ↔
        s ∈ onlyProps.getD (propsWithValues row) ∨ s ∈ pkColumnNames props)
    ∧ (∀ c ∈ pkColumnNames props, c ∈ updateBoundProps props row onlyProps) := by
  refine ⟨nodup_dedupAux _ _, ?_, ?_⟩
  · intro s
    rw [updateBoundProps, jsSetList, mem_dedupAux]
    simp [List.mem_append]
  · intro c hc
    rw [updateBoundProps, jsSetList, mem_dedupAux]
    simp [List.mem_append, hc]

/-- Claim C9 witness: the primary-key column is always bound. -/
theorem claim9_witness :
    "id" ∈ updateBoundProps
      [{ name := "id", column := some { primaryKey := true, name := "id" } }]
      [] (some ["email"]) :=
  (claim9_update_bound_fields
    [{ name := "id", column := some { primaryKey := true, name := "id" } }]
    [] (some ["email"])).2.2 "id" (by decide)

/--
Claim C9 counterexample: when the primary-key column is renamed, the
bound field set contains the column name, not the primary-key property
name the claim promises.
-/
theorem claim9_counterexample :
    updateBoundProps
        [{ name := "id", column := some { primaryKey := true, name := "user_id" } }]
        [] (some ["email"])
      = ["email", "user_id"]
    ∧ "id" ∉ updateBoundProps
        [{ name := "id", column := some { primaryKey := true, name := "user_id" } }]
        [] (some ["email"]) :=
  ⟨rfl, by decide⟩

/--
Claim C10: a statement with recorded named tokens invoked with a
mapping source binds one entry per recorded name, in recorded order,
and every entry whose source value is null, undefined or absent is
bound as null; no entry handed to the driver is undefined.
-/
theorem claim10_named_binding (q : DriverStatementQuery)
    (fs : List (String × Value)) (ns : List String)
    (hns : q.paramNames = some ns) (hne : ns ≠ []) :
    dsParams q (Value.obj fs)
        = .ok (some (ns.map (fun k => nullCo (jsGet fs k) Value.vnull)))
    ∧ (ns.map (fun k => nullCo (jsGet fs k) Value.vnull)).length = ns.length
    ∧ Value.undefined ∉ ns.map (fun k => nullCo (jsGet fs k) Value.vnull)
    ∧ ∀ k ∈ ns, (jsGet fs k).nullish = true →
        nullCo (jsGet fs k) Value.vnull = Value.vnull := by
  have hlen : ((q.paramNames.getD []).length != 0) = true := by
    rw [hns]
    cases ns with
    | nil => exact absurd rfl hne
    | cons a t => simp
  refine ⟨?_, by simp, ?_, ?_⟩
  · have hrec : (Value.obj fs).isRec = true := rfl
    have hcond : ((q.paramNames.getD []).length != 0 && (Value.obj fs).isRec)
        = true := by
      simp [hlen, hrec]
    simp only [dsParams]
    rw [if_pos hcond, hns]
    rfl
  · intro hmem
    obtain ⟨k, hk, hkv⟩ := List.mem_map.mp hmem
    exact nullCo_ne_undefined _ hkv
  · intro k hk hn
    simp [nullCo, hn]

/-- Claim C10 witness: concrete named binding with a null and a
present value. -/
theorem claim10_witness :
    dsParams { sql := "? ?", values := [Value.num 7, Value.undefined],
               paramNames := some ["a", "b"] }
        (Value.obj [("a", Value.num 7), ("c", Value.bool true)])
      = .ok (some [Value.num 7, Value.vnull]) := by
  have h := (claim10_named_binding
      { sql := "? ?", values := [Value.num 7, Value.undefined],
        paramNames := some ["a", "b"] }
      [("a", Value.num 7), ("c", Value.bool true)] ["a", "b"] rfl
      (by simp)).1
  rw [h]
  rfl

/--
Claim C6: splitSqlStatements partitions the input only at a semicolon
immediately followed by a line feed or by a carriage-return-line-feed
pair (witnessed by reassembling the raw fragments with exactly those
separators), and every returned fragment is non-empty, equal to its
own trim, and a contiguous substring of the input, in source order.
-/
theorem claim6_splitSqlStatements (sql : String) :
    (∃ seps, (∀ s ∈ seps, s = [';', '\n'] ∨ s = [';', '\r', '\n'])
        ∧ seps.length + 1 = (rawSplit sql.toList).length
        ∧ sepJoin (rawSplit sql.toList) seps = sql.toList)
    ∧ ∀ f ∈ splitSqlStatements sql,
        f ≠ "" ∧ trimChars f.toList = f.toList
          ∧ ∃ pre post, sql.toList = pre ++ f.toList ++ post := by
  refine ⟨rawSplit_reconstruct sql.toList, ?_⟩
  intro f hf
  simp only [splitSqlStatements, List.mem_map, List.mem_filter,
    decide_eq_true_eq] at hf
  obtain ⟨tl, ⟨⟨fr, hfr, rfl⟩, htne⟩, rfl⟩ := hf
  refine ⟨?_, ?_, ?_⟩
  · intro he
    apply htne
    have h0 : ("" : String).toList = [] := rfl
    have := congrArg String.toList he
    rw [toList_mk, h0] at this
    exact this
  · rw [toList_mk]
    exact trimChars_idem fr
  · obtain ⟨seps, hm, hlen, hjoin⟩ := rawSplit_reconstruct sql.toList
    obtain ⟨pre1, post1, h1⟩ :=
      sepJoin_mem_decomp fr (rawSplit sql.toList) seps sql.toList hlen hjoin hfr
    obtain ⟨pre2, post2, h2⟩ := trim_decomp fr
    refine ⟨pre1 ++ pre2, post2 ++ post1, ?_⟩
    have hgoal : sql.toList = ((pre1 ++ pre2) ++ trimChars fr) ++ (post2 ++ post1) := by
      rw [h2] at h1
      rw [h1]
      simp [List.append_assoc]
    exact hgoal

/-- Claim C6 witness: a concrete split fragment is non-empty, trimmed
and a substring of the script. -/
theorem claim6_witness :
    ("a" : String) ≠ ""
    ∧ trimChars ("a" : String).toList = ("a" : String).toList
    ∧ ∃ pre post, (" a ;\nb" : String).toList = pre ++ ("a" : String).toList ++ post :=
  (claim6_splitSqlStatements " a ;\nb").2 "a" (by decide)

end LitdbMysql2
